import Mathlib

/-!
Verification of the basic-ipam address allocation service.

The Go source (`src/unnamed/part_000`) is embedded shallowly:

* IP addresses are big-endian byte lists (`List Nat`, each entry `< 256`),
  matching the `net.IP` byte-slice representation (4 bytes for IPv4,
  16 bytes for IPv6).
* `incrementIP` mirrors the Go loop that walks the slice from its last
  byte, incrementing with byte wrap-around and stopping at the first
  nonzero result.
* CIDR blocks are `IPNet` values (network bytes plus mask bytes);
  `containsB` mirrors `net.IPNet.Contains` for the same-length case,
  the only case the service reaches (candidate addresses always have
  the network's length).
* The scan loop of `findAvailableIP` is embedded with explicit fuel
  `2 ^ (8 * n)` for an `n`-byte network.  The Go loop is unbounded; a
  run that has not returned after `2 ^ (8 * n)` iterations has wrapped
  all the way around the address space back to its starting candidate
  and therefore never returns, so `ScanResult.fuelOut` marks exactly
  the non-terminating executions of the source loop.
* The SQLite table is a `List Row` in insertion order (the table's
  AUTOINCREMENT id makes unordered SELECTs scan in insertion order);
  SQL WHERE clauses become list filters over the bound parameters of
  the query that the code builds.
-/

set_option maxRecDepth 8000

namespace IPAM

/-- A byte list is valid when every entry fits in one byte, as the bytes of
a `net.IP` slice do. -/
def validBytes (l : List Nat) : Prop := ∀ b ∈ l, b < 256

instance (l : List Nat) : Decidable (validBytes l) :=
  List.decidableBAll _ l

/-- One step of `incrementIP` seen from the least significant byte: the Go
loop walks `j` from the end of the slice, increments `ip[j]` with byte
wrap-around, and stops as soon as the incremented byte is nonzero. -/
def incByteRev : List Nat → List Nat
  | [] => []
  | b :: rest =>
    if 0 < (b + 1) % 256 then (b + 1) % 256 :: rest else 0 :: incByteRev rest

/-- `incrementIP` from the source: byte-wise increment with carry
propagation from the last byte of the big-endian byte list. -/
def incrementIP (ip : List Nat) : List Nat := (incByteRev ip.reverse).reverse

/-- Value of a little-endian byte list (least significant byte first). -/
def toNatLE : List Nat → Nat
  | [] => 0
  | b :: rest => b + 256 * toNatLE rest

/-- Value of a big-endian byte list, the order `net.IP` uses. -/
def toNatBE (l : List Nat) : Nat := toNatLE l.reverse

/-- Little-endian byte list of a number, `n` bytes long. -/
def ofNatLE : Nat → Nat → List Nat
  | 0, _ => []
  | n + 1, k => k % 256 :: ofNatLE n (k / 256)

/-- Big-endian byte list of a number, `n` bytes long. -/
def ofNatBE (n k : Nat) : List Nat := (ofNatLE n k).reverse

/-- Mask bytes for a given number of leading one bits, as built by Go's
`net.CIDRMask`: whole `0xff` bytes, then one partial byte, then zeros. -/
def maskBytesOf : Nat → Nat → List Nat
  | 0, _ => []
  | n + 1, p => if 8 ≤ p then 255 :: maskBytesOf n (p - 8) else (256 - 2 ^ (8 - p)) :: maskBytesOf n 0

/-- A CIDR block as `net.ParseCIDR` produces it: masked network bytes plus
mask bytes of the same length. -/
structure IPNet where
  network : List Nat
  mask : List Nat
deriving DecidableEq

/-- `net.IPNet.Contains` for equal-length addresses (the only case the
service reaches: every candidate it tests has the network's byte length).
Go masks both the network and the probed address and compares byte-wise. -/
def containsB (net : IPNet) (ip : List Nat) : Bool :=
  (ip.length == net.network.length) &&
    (List.zipWith Nat.land net.network net.mask == List.zipWith Nat.land ip net.mask)

/-- Well-formedness facts guaranteed by `net.ParseCIDR` for a block with
`n` address bytes and `p` leading mask bits: the network is `n` bytes of
valid values, the mask is the canonical contiguous mask, and masking the
network again leaves it unchanged. -/
def ValidNet (net : IPNet) (n p : Nat) : Prop :=
  net.network.length = n ∧ net.mask = maskBytesOf n p ∧ p ≤ 8 * n ∧
    validBytes net.network ∧ List.zipWith Nat.land net.network net.mask = net.network

instance (net : IPNet) (n p : Nat) : Decidable (ValidNet net n p) := by
  unfold ValidNet
  infer_instance

/-- Result of one run of the `findAvailableIP` scan loop.  `fuelOut` is the
model's marker for a run of the (unbounded) Go loop that never exits. -/
inductive ScanResult where
  | found (ip : List Nat)
  | exhausted
  | fuelOut
deriving DecidableEq

/-- The loop body of `findAvailableIP`:
`for ip := ...; ipNet.Contains(ip); incrementIP(ip) { if !taken { return } }`.
The loop condition is checked before the oracle is consulted, so the
oracle is only ever applied to addresses the block contains. -/
def scanIPs (oracle : List Nat → Bool) (net : IPNet) : Nat → List Nat → ScanResult
  | 0, _ => ScanResult.fuelOut
  | fuel + 1, ip =>
    if containsB net ip then
      if oracle ip then scanIPs oracle net fuel (incrementIP ip)
      else ScanResult.found ip
    else ScanResult.exhausted

/-- `findAvailableIP` after `net.ParseCIDR` succeeded, abstracted over the
is-taken oracle (the source instantiates the oracle with `isIPReserved`).
The first candidate is the masked network address incremented once; fuel
`2 ^ (8 * n)` is one full cycle of the `n`-byte address space, enough for
every terminating run of the source loop. -/
def findAvailableIP (net : IPNet) (oracle : List Nat → Bool) : ScanResult :=
  scanIPs oracle net (2 ^ (8 * net.network.length)) (incrementIP net.network)

/-- Reference linear search over numeric addresses: first `v` in the given
range of `steps` values with `free v = true`. -/
def numScan (free : Nat → Bool) : Nat → Nat → Option Nat
  | 0, _ => none
  | steps + 1, v => if free v then some v else numScan free steps (v + 1)

/-- Split a character list at every occurrence of `c`, the effect of the
separator handling inside `net.ParseCIDR` (split at the first slash; a
second slash then makes the suffix fail to parse as digits, which this
total split reproduces) and of the dot splitting of dotted-quad parsing. -/
def splitOnChar (c : Char) : List Char → List (List Char)
  | [] => [[]]
  | x :: xs =>
    if x = c then [] :: splitOnChar c xs
    else
      match splitOnChar c xs with
      | [] => [[x]]
      | g :: gs => (x :: g) :: gs

/-- Decimal value of a digit string. -/
def digitsToNat (l : List Char) : Nat :=
  l.foldl (fun a c => a * 10 + (c.toNat - 48)) 0

/-- One dotted-quad field as Go's `parseIPv4` accepts it: nonempty, all
digits, no leading zero (Go 1.17+), value at most 255. -/
def parseByte (field : List Char) : Option Nat :=
  if field.isEmpty then none
  else if !field.all Char.isDigit then none
  else if 1 < field.length ∧ field.head? = some '0' then none
  else if digitsToNat field ≤ 255 then some (digitsToNat field) else none

/-- The mask-length field of a CIDR string as Go's `dtoi` accepts it:
nonempty, all digits, and within range (Go additionally caps `dtoi` at
`0xFFFFFF`, which rejects the same strings as the `≤ 32` bound does). -/
def parseMaskLen (l : List Char) : Option Nat :=
  if l.isEmpty then none
  else if !l.all Char.isDigit then none
  else if digitsToNat l ≤ 32 then some (digitsToNat l) else none

/-- Dotted-quad address text to 4 address bytes. -/
def parseIPv4 (l : List Char) : Option (List Nat) :=
  match splitOnChar '.' l with
  | [a, b, c, d] =>
    match parseByte a, parseByte b, parseByte c, parseByte d with
    | some w, some x, some y, some z => some [w, x, y, z]
    | _, _, _, _ => none
  | _ => none

/-- `net.ParseCIDR` for IPv4 dotted-quad text: split at the slash, parse
the address and the mask length, and return the mask-length together with
the block (address masked down to the network, plus the mask bytes).
IPv6 textual forms are not modelled — every concrete string this
development evaluates is IPv4, and the block-level theorems are stated
generically over byte lengths, covering 16-byte blocks as well. -/
def parseCIDR (s : String) : Option (Nat × IPNet) :=
  match splitOnChar '/' s.toList with
  | [addr, maskStr] =>
    match parseIPv4 addr, parseMaskLen maskStr with
    | some ip, some p =>
      some (p, ⟨List.zipWith Nat.land ip (maskBytesOf 4 p), maskBytesOf 4 p⟩)
    | _, _ => none
  | _ => none

/-- Decimal digits of a number, most significant first. -/
def natChars (n : Nat) : List Char := Nat.toDigits 10 n

/-- `net.IP.String` for a 4-byte address: dotted quad without leading
zeros. -/
def ipToString (ip : List Nat) : String :=
  String.mk (List.intercalate ['.'] (ip.map natChars))

/-- `net.IPNet.String`: the network in dotted quad, a slash, and the mask
bit count.  Go recomputes the bit count from the mask bytes with
`simpleMaskLength`; for masks built by `CIDRMask p` that recomputation
returns `p`, which the parser already carries. -/
def ipNetString (network : List Nat) (p : Nat) : String :=
  ipToString network ++ "/" ++ String.mk (natChars p)

/-- One row of the `ips` table:
`(cidr TEXT, tenant_name TEXT, ip_address TEXT, purpose TEXT)` with the
autogenerated id left implicit in the list position. -/
structure Row where
  cidr : String
  tenant : String
  ip : String
  purpose : String
deriving DecidableEq

/-- The `ips` table in insertion order. -/
abbrev Store := List Row

/-- The WHERE clause built by `isIPReserved`:
`cidr = ? AND ip_address = ?`, plus `AND tenant_name = ?` only when the
tenant argument is nonempty. -/
def rowMatches (cidr ip tenant : String) (r : Row) : Bool :=
  r.cidr == cidr && r.ip == ip && (tenant == "" || r.tenant == tenant)

/-- `isIPReserved` from the source.  `QueryRow` yields the first matching
row; on `ErrNoRows` the scanned variable keeps its zero value `""` (the
error is only logged), and the function returns `storedIP == ip`. -/
def isIPReserved (st : Store) (ip cidr tenant : String) : Bool :=
  match st.filter (rowMatches cidr ip tenant) with
  | [] => ip == ""
  | r :: _ => r.ip == ip

/-- `findAvailableIP` from the source at the string level: parse the CIDR
(returning not-found on a parse error) and run the scan loop with the
`isIPReserved` oracle, rendering the found address back to text. -/
def findAvailableIPStr (st : Store) (cidr tenant : String) : String × Bool :=
  match parseCIDR cidr with
  | none => ("", false)
  | some (_, net) =>
    match findAvailableIP net
        (fun ipB => isIPReserved st (ipToString ipB) cidr tenant) with
    | ScanResult.found ipB => (ipToString ipB, true)
    | _ => ("", false)

/-- Failure modes of `reserveIP`: the three error returns of the source. -/
inductive ReserveErr where
  | noAvailable
  | alreadyReserved
  | storeFailure
deriving DecidableEq

/-- The UNIQUE constraint key `(cidr, tenant_name, ip_address)`. -/
def dupKey (cidr tenant ip : String) (r : Row) : Bool :=
  r.cidr == cidr && r.tenant == tenant && r.ip == ip

/-- `reserveIP` from the source: scan, re-check, insert.  The INSERT can
fail on the UNIQUE constraint or on any other backend error (modelled by
the `backendFail` oracle); a single failed SQLite statement leaves no row
behind, so both failure paths return the store unchanged. -/
def reserveIP (backendFail : Row → Bool) (st : Store)
    (cidr tenant purpose : String) : Except ReserveErr String × Store :=
  match findAvailableIPStr st cidr tenant with
  | (_, false) => (Except.error ReserveErr.noAvailable, st)
  | (ip, true) =>
    if isIPReserved st ip cidr tenant then
      (Except.error ReserveErr.alreadyReserved, st)
    else
      if st.any (dupKey cidr tenant ip) || backendFail ⟨cidr, tenant, ip, purpose⟩ then
        (Except.error ReserveErr.storeFailure, st)
      else
        (Except.ok ip, st ++ [⟨cidr, tenant, ip, purpose⟩])

/-- `releaseReservedIP` from the source:
`DELETE FROM ips WHERE cidr = ? AND tenant_name = ? AND ip_address = ?`,
then report whether any row was affected. -/
def releaseReservedIP (st : Store) (cidr tenant ip : String) : Bool × Store :=
  let remaining :=
    st.filter (fun r => !(r.cidr == cidr && r.tenant == tenant && r.ip == ip))
  (decide (remaining.length < st.length), remaining)

/-- `getIPsInSubnet` from the source: parse the subnet, then
`SELECT ip_address FROM ips WHERE cidr = ?` bound to `ipNet.String()`,
collecting the addresses in table order. -/
def getIPsInSubnet (st : Store) (subnet : String) : Option (List String) :=
  match parseCIDR subnet with
  | none => none
  | some (p, net) =>
    some ((st.filter (fun r => r.cidr == ipNetString net.network p)).map Row.ip)

/-- The subnet normalization of `GetIPsInSubnetHandler`: a query without a
slash gets `"/32"` appended, regardless of address family. -/
def normalizeSubnet (s : String) : String :=
  if s.toList.contains '/' then s else s ++ "/32"

/-- Modelled from the spec: the per-family single-host normalization the
specification describes for `listAddresses` — append `/32` to a bare IPv4
address and `/128` to a bare IPv6 address (recognized by a colon). -/
def specNormalizeSubnet (s : String) : String :=
  if s.toList.contains '/' then s
  else if s.toList.contains ':' then s ++ "/128" else s ++ "/32"

/-- The UNIQUE constraint over `(cidr, tenant_name, ip_address)` as a
store invariant. -/
def uniqueTriples (st : Store) : Prop :=
  List.Pairwise
    (fun a b => ¬(a.cidr = b.cidr ∧ a.tenant = b.tenant ∧ a.ip = b.ip)) st

/-- The block `10.0.0.0/24` used by the concrete test scenarios. -/
def net24 : IPNet := ⟨[10, 0, 0, 0], [255, 255, 255, 0]⟩

/-- The full IPv4 address space `0.0.0.0/0`. -/
def zeroNet4 : IPNet := ⟨[0, 0, 0, 0], [0, 0, 0, 0]⟩

/-- An oracle that reports every address taken except `0.0.0.0`. -/
def takenExceptZero (a : List Nat) : Bool := !(a == [0, 0, 0, 0])

instance : DecidableEq (Except ReserveErr String) := fun a b =>
  match a, b with
  | Except.ok x, Except.ok y =>
    if h : x = y then isTrue (by rw [h]) else isFalse (by simp [h])
  | Except.error x, Except.error y =>
    if h : x = y then isTrue (by rw [h]) else isFalse (by simp [h])
  | Except.ok _, Except.error _ => isFalse (by simp)
  | Except.error _, Except.ok _ => isFalse (by simp)

theorem incByteRev_length (l : List Nat) : (incByteRev l).length = l.length := by
  induction l with
  | nil => rfl
  | cons b rest ih =>
    simp only [incByteRev]
    split <;> simp [ih]

theorem incrementIP_length (l : List Nat) : (incrementIP l).length = l.length := by
  simp [incrementIP, incByteRev_length]

theorem incByteRev_valid (l : List Nat) (h : validBytes l) :
    validBytes (incByteRev l) := by
  induction l with
  | nil => exact h
  | cons b rest ih =>
    have hrest : validBytes rest := fun x hx => h x (List.mem_cons_of_mem _ hx)
    simp only [incByteRev]
    split
    · intro x hx
      rcases List.mem_cons.mp hx with hx | hx
      · subst hx; exact Nat.mod_lt _ (by omega)
      · exact hrest x hx
    · intro x hx
      rcases List.mem_cons.mp hx with hx | hx
      · subst hx; omega
      · exact ih hrest x hx

theorem validBytes_reverse (l : List Nat) (h : validBytes l) :
    validBytes l.reverse := by
  intro x hx
  exact h x (List.mem_reverse.mp hx)

theorem incrementIP_valid (l : List Nat) (h : validBytes l) :
    validBytes (incrementIP l) := by
  exact validBytes_reverse _ (incByteRev_valid _ (validBytes_reverse _ h))

theorem toNatLE_lt (l : List Nat) (h : validBytes l) :
    toNatLE l < 2 ^ (8 * l.length) := by
  induction l with
  | nil => simp [toNatLE]
  | cons b rest ih =>
    have hb : b < 256 := h b (List.mem_cons_self _ _)
    have hrest : validBytes rest := fun x hx => h x (List.mem_cons_of_mem _ hx)
    have ht := ih hrest
    have hpow : 2 ^ (8 * (b :: rest).length) = 256 * 2 ^ (8 * rest.length) := by
      simp only [List.length_cons]
      rw [Nat.mul_succ, Nat.pow_add]
      ring
    rw [hpow]
    simp only [toNatLE]
    omega

theorem toNatBE_lt (l : List Nat) (h : validBytes l) :
    toNatBE l < 2 ^ (8 * l.length) := by
  have := toNatLE_lt l.reverse (validBytes_reverse _ h)
  simpa [toNatBE] using this

theorem toNatLE_incByteRev (l : List Nat) (h : validBytes l) :
    toNatLE (incByteRev l) = (toNatLE l + 1) % 2 ^ (8 * l.length) := by
  induction l with
  | nil => simp [incByteRev, toNatLE]
  | cons b rest ih =>
    have hb : b < 256 := h b (List.mem_cons_self _ _)
    have hrest : validBytes rest := fun x hx => h x (List.mem_cons_of_mem _ hx)
    have ht := toNatLE_lt rest hrest
    have hpow : 2 ^ (8 * (b :: rest).length) = 256 * 2 ^ (8 * rest.length) := by
      simp only [List.length_cons]
      rw [Nat.mul_succ, Nat.pow_add]
      ring
    by_cases hb255 : b = 255
    · subst hb255
      have hmod : (255 + 1) % 256 = 0 := by norm_num
      simp only [incByteRev, hmod, Nat.lt_irrefl, if_false, toNatLE, ih hrest, hpow]
      have h1 : 255 + 256 * toNatLE rest + 1 = 256 * (toNatLE rest + 1) := by ring
      rw [h1, Nat.mul_mod_mul_left]
      omega
    · have hlt : b + 1 < 256 := by omega
      have hmod : (b + 1) % 256 = b + 1 := Nat.mod_eq_of_lt hlt
      simp only [incByteRev, hmod]
      have hpos : 0 < b + 1 := by omega
      simp only [if_pos hpos, toNatLE, hpow]
      have hsmall : b + 1 + 256 * toNatLE rest < 256 * 2 ^ (8 * rest.length) := by
        omega
      rw [Nat.mod_eq_of_lt (by omega)]
      omega

theorem toNatBE_incrementIP (l : List Nat) (h : validBytes l) :
    toNatBE (incrementIP l) = (toNatBE l + 1) % 2 ^ (8 * l.length) := by
  have := toNatLE_incByteRev l.reverse (validBytes_reverse _ h)
  simp only [incrementIP, toNatBE, List.reverse_reverse]
  simpa using this

theorem length_ofNatLE (n k : Nat) : (ofNatLE n k).length = n := by
  induction n generalizing k with
  | zero => rfl
  | succ n ih => simp [ofNatLE, ih]

theorem length_ofNatBE (n k : Nat) : (ofNatBE n k).length = n := by
  simp [ofNatBE, length_ofNatLE]

theorem validBytes_ofNatLE (n k : Nat) : validBytes (ofNatLE n k) := by
  induction n generalizing k with
  | zero => intro x hx; simp [ofNatLE] at hx
  | succ n ih =>
    intro x hx
    simp only [ofNatLE] at hx
    rcases List.mem_cons.mp hx with hx | hx
    · subst hx; exact Nat.mod_lt _ (by omega)
    · exact ih (k / 256) x hx

theorem validBytes_ofNatBE (n k : Nat) : validBytes (ofNatBE n k) :=
  validBytes_reverse _ (validBytes_ofNatLE n k)

theorem toNatLE_ofNatLE (n k : Nat) : toNatLE (ofNatLE n k) = k % 2 ^ (8 * n) := by
  induction n generalizing k with
  | zero => simp [ofNatLE, toNatLE, Nat.mod_one]
  | succ n ih =>
    simp only [ofNatLE, toNatLE, ih]
    have hpow : 2 ^ (8 * (n + 1)) = 256 * 2 ^ (8 * n) := by
      rw [Nat.mul_succ, Nat.pow_add]
      ring
    rw [hpow, Nat.mod_mul]

theorem toNatBE_ofNatBE (n k : Nat) : toNatBE (ofNatBE n k) = k % 2 ^ (8 * n) := by
  simp [toNatBE, ofNatBE, List.reverse_reverse, toNatLE_ofNatLE]

theorem ofNatLE_toNatLE (l : List Nat) (h : validBytes l) :
    ofNatLE l.length (toNatLE l) = l := by
  induction l with
  | nil => rfl
  | cons b rest ih =>
    have hb : b < 256 := h b (List.mem_cons_self _ _)
    have hrest : validBytes rest := fun x hx => h x (List.mem_cons_of_mem _ hx)
    simp only [List.length_cons, ofNatLE, toNatLE]
    have h1 : (b + 256 * toNatLE rest) % 256 = b := by
      rw [Nat.add_mul_mod_self_left]
      exact Nat.mod_eq_of_lt hb
    have h2 : (b + 256 * toNatLE rest) / 256 = toNatLE rest := by
      rw [Nat.add_mul_div_left _ _ (by omega : 0 < 256), Nat.div_eq_of_lt hb]
      omega
    rw [h1, h2, ih hrest]

theorem ofNatBE_toNatBE (l : List Nat) (h : validBytes l) :
    ofNatBE l.length (toNatBE l) = l := by
  have := ofNatLE_toNatLE l.reverse (validBytes_reverse _ h)
  simp only [List.length_reverse] at this
  simp only [ofNatBE, toNatBE, this, List.reverse_reverse]

theorem ofNatLE_congr (n : Nat) {j k : Nat}
    (h : j % 2 ^ (8 * n) = k % 2 ^ (8 * n)) : ofNatLE n j = ofNatLE n k := by
  induction n generalizing j k with
  | zero => rfl
  | succ n ih =>
    have hpow : 2 ^ (8 * (n + 1)) = 256 * 2 ^ (8 * n) := by
      rw [Nat.mul_succ, Nat.pow_add]
      ring
    rw [hpow, Nat.mod_mul, Nat.mod_mul] at h
    have hj : j % 256 < 256 := Nat.mod_lt _ (by omega)
    have hk : k % 256 < 256 := Nat.mod_lt _ (by omega)
    have hd : j / 256 % 2 ^ (8 * n) = k / 256 % 2 ^ (8 * n) := by omega
    have hm : j % 256 = k % 256 := by omega
    simp only [ofNatLE, hm, ih hd]

theorem ofNatBE_congr (n : Nat) {j k : Nat}
    (h : j % 2 ^ (8 * n) = k % 2 ^ (8 * n)) : ofNatBE n j = ofNatBE n k := by
  simp [ofNatBE, ofNatLE_congr n h]

theorem incrementIP_ofNatBE (n k : Nat) :
    incrementIP (ofNatBE n k) = ofNatBE n (k + 1) := by
  have hval := validBytes_ofNatBE n k
  have hinc := toNatBE_incrementIP (ofNatBE n k) hval
  have hlen : (incrementIP (ofNatBE n k)).length = n := by
    rw [incrementIP_length, length_ofNatBE]
  have hval2 := incrementIP_valid (ofNatBE n k) hval
  have hrt := ofNatBE_toNatBE (incrementIP (ofNatBE n k)) hval2
  rw [hlen] at hrt
  rw [← hrt, hinc, length_ofNatBE, toNatBE_ofNatBE]
  apply ofNatBE_congr
  rw [Nat.mod_mod_of_dvd _ dvd_rfl, Nat.mod_add_mod]

theorem toNatLE_append_last (xs : List Nat) (b : Nat) :
    toNatLE (xs ++ [b]) = toNatLE xs + 2 ^ (8 * xs.length) * b := by
  induction xs with
  | nil => simp [toNatLE]
  | cons x rest ih =>
    have hpow : 2 ^ (8 * (rest.length + 1)) = 256 * 2 ^ (8 * rest.length) := by
      rw [Nat.mul_succ, Nat.pow_add]
      ring
    simp only [List.cons_append, toNatLE, List.append_eq, ih, List.length_cons, hpow]
    ring

theorem toNatBE_cons (b : Nat) (rest : List Nat) :
    toNatBE (b :: rest) = b * 2 ^ (8 * rest.length) + toNatBE rest := by
  simp only [toNatBE, List.reverse_cons, toNatLE_append_last, List.length_reverse]
  ring

theorem ofNatBE_zero (n : Nat) : ofNatBE n 0 = List.replicate n 0 := by
  have h : ∀ m, ofNatLE m 0 = List.replicate m 0 := by
    intro m
    induction m with
    | zero => rfl
    | succ m ih => simp [ofNatLE, ih, List.replicate_succ]
  simp [ofNatBE, h, List.reverse_replicate]

theorem ofNatBE_succ_cons (n k : Nat) :
    ofNatBE (n + 1) k = (k / 2 ^ (8 * n)) % 256 :: ofNatBE n k := by
  induction n generalizing k with
  | zero =>
    simp [ofNatBE, ofNatLE]
  | succ n ih =>
    have h1 : ofNatBE (n + 2) k = ofNatBE (n + 1) (k / 256) ++ [k % 256] := by
      simp [ofNatBE, ofNatLE]
    have h2 : ofNatBE (n + 1) k = ofNatBE n (k / 256) ++ [k % 256] := by
      simp [ofNatBE, ofNatLE]
    rw [h1, ih (k / 256), h2, List.cons_append]
    have h3 : k / 256 / 2 ^ (8 * n) = k / 2 ^ (8 * (n + 1)) := by
      rw [Nat.div_div_eq_div_mul]
      congr 1
      rw [Nat.mul_succ, Nat.pow_add]
      ring
    rw [h3]

theorem length_maskBytesOf (n p : Nat) : (maskBytesOf n p).length = n := by
  induction n generalizing p with
  | zero => rfl
  | succ n ih =>
    simp only [maskBytesOf]
    split <;> simp [ih]

theorem maskBytesOf_zero (n : Nat) : maskBytesOf n 0 = List.replicate n 0 := by
  induction n with
  | zero => rfl
  | succ n ih =>
    simp [maskBytesOf, ih, List.replicate_succ]

/-- Byte-level effect of Go's `&` against a contiguous mask byte
`256 - 2 ^ k`: it clears the low `k` bits. -/
theorem land_maskByte (b k : Nat) (hb : b < 256) (hk : k ≤ 8) :
    Nat.land b (256 - 2 ^ k) = b / 2 ^ k * 2 ^ k := by
  have h : ∀ b : Fin 256, ∀ k : Fin 9,
      Nat.land b.val (256 - 2 ^ k.val) = b.val / 2 ^ k.val * 2 ^ k.val := by decide
  exact h ⟨b, hb⟩ ⟨k, by omega⟩

theorem zipWith_land_zero (rest : List Nat) (n : Nat) (hlen : rest.length = n)
    (hv : validBytes rest) :
    List.zipWith Nat.land rest (List.replicate n 0) = List.replicate n 0 := by
  induction rest generalizing n with
  | nil => subst hlen; rfl
  | cons r tail ih =>
    subst hlen
    have hr : r < 256 := hv r (List.mem_cons_self _ _)
    have htail : validBytes tail := fun x hx => hv x (List.mem_cons_of_mem _ hx)
    have hz : Nat.land r 0 = 0 := by
      have := land_maskByte r 8 hr (by omega)
      simpa [Nat.div_eq_of_lt hr] using this
    simp only [List.length_cons, List.replicate_succ, List.zipWith_cons_cons, hz,
      ih tail.length rfl htail]

/-- Masking an address byte-wise with the canonical `p`-bit mask computes
the numeric value with the low `8 * n - p` bits cleared. -/
theorem zipWith_land_mask (n p : Nat) (xs : List Nat) (hlen : xs.length = n)
    (hv : validBytes xs) (hp : p ≤ 8 * n) :
    List.zipWith Nat.land xs (maskBytesOf n p) =
      ofNatBE n (toNatBE xs / 2 ^ (8 * n - p) * 2 ^ (8 * n - p)) := by
  induction n generalizing xs p with
  | zero =>
    have : xs = [] := List.length_eq_zero.mp hlen
    subst this
    rfl
  | succ n ih =>
    cases xs with
    | nil => simp at hlen
    | cons x rest =>
      have hlen' : rest.length = n := by simpa using hlen
      have hx : x < 256 := hv x (List.mem_cons_self _ _)
      have hrest : validBytes rest := fun y hy => hv y (List.mem_cons_of_mem _ hy)
      have hR : toNatBE rest < 2 ^ (8 * n) := by
        have := toNatBE_lt rest hrest
        rwa [hlen'] at this
      have hB : 0 < 2 ^ (8 * n) := Nat.pos_pow_of_pos _ (by omega)
      have hcons : toNatBE (x :: rest) = x * 2 ^ (8 * n) + toNatBE rest := by
        rw [toNatBE_cons, hlen']
      by_cases hp8 : 8 ≤ p
      · -- whole leading mask byte: the head byte is kept as is
        have hmask : maskBytesOf (n + 1) p = 255 :: maskBytesOf n (p - 8) := by
          simp [maskBytesOf, hp8]
        have h255 : Nat.land x 255 = x := by
          have := land_maskByte x 0 hx (by omega)
          simpa using this
        have hexp : 8 * (n + 1) - p = 8 * n - (p - 8) := by omega
        have hple : p - 8 ≤ 8 * n := by omega
        have hT : (2 : Nat) ^ (8 * n - (p - 8)) ∣ 2 ^ (8 * n) :=
          Nat.pow_dvd_pow 2 (by omega)
        obtain ⟨c, hc⟩ := hT
        have hTpos : 0 < (2 : Nat) ^ (8 * n - (p - 8)) := Nat.pos_pow_of_pos _ (by omega)
        have hsplit :
            toNatBE (x :: rest) / 2 ^ (8 * n - (p - 8)) * 2 ^ (8 * n - (p - 8)) =
              x * 2 ^ (8 * n) +
                toNatBE rest / 2 ^ (8 * n - (p - 8)) * 2 ^ (8 * n - (p - 8)) := by
          have h1 : x * 2 ^ (8 * n) + toNatBE rest =
              toNatBE rest + x * c * 2 ^ (8 * n - (p - 8)) := by
            rw [hc]; ring
          rw [hcons, h1, Nat.add_mul_div_right _ _ hTpos, Nat.add_mul, hc]
          ring
        have hy : toNatBE rest / 2 ^ (8 * n - (p - 8)) * 2 ^ (8 * n - (p - 8)) ≤
            toNatBE rest := Nat.div_mul_le_self _ _
        rw [hmask, List.zipWith_cons_cons, h255, ih (p - 8) rest hlen' hrest hple, hexp,
          hsplit, ofNatBE_succ_cons]
        have hhead : (x * 2 ^ (8 * n) +
            toNatBE rest / 2 ^ (8 * n - (p - 8)) * 2 ^ (8 * n - (p - 8))) / 2 ^ (8 * n) %
              256 = x := by
          rw [Nat.mul_comm x, Nat.mul_add_div hB, Nat.div_eq_of_lt (by omega)]
          exact Nat.mod_eq_of_lt (by omega)
        have htail : ofNatBE n (x * 2 ^ (8 * n) +
            toNatBE rest / 2 ^ (8 * n - (p - 8)) * 2 ^ (8 * n - (p - 8))) =
            ofNatBE n (toNatBE rest / 2 ^ (8 * n - (p - 8)) * 2 ^ (8 * n - (p - 8))) := by
          apply ofNatBE_congr
          rw [Nat.mul_comm x, Nat.mul_add_mod]
        rw [hhead, htail]
      · -- partial leading mask byte, zero mask bytes below
        have hplt : p < 8 := by omega
        have hmask : maskBytesOf (n + 1) p = (256 - 2 ^ (8 - p)) :: maskBytesOf n 0 := by
          simp [maskBytesOf, hp8]
        have hland : Nat.land x (256 - 2 ^ (8 - p)) = x / 2 ^ (8 - p) * 2 ^ (8 - p) :=
          land_maskByte x (8 - p) hx (by omega)
        have hexp : 8 * (n + 1) - p = 8 * n + (8 - p) := by omega
        have hsplitpow : (2 : Nat) ^ (8 * n + (8 - p)) = 2 ^ (8 * n) * 2 ^ (8 - p) :=
          Nat.pow_add 2 _ _
        have hDpos : 0 < (2 : Nat) ^ (8 - p) := Nat.pos_pow_of_pos _ (by omega)
        have hdiv : toNatBE (x :: rest) / 2 ^ (8 * n + (8 - p)) = x / 2 ^ (8 - p) := by
          rw [hcons, hsplitpow, ← Nat.div_div_eq_div_mul, Nat.mul_comm x,
            Nat.mul_add_div hB, Nat.div_eq_of_lt hR, Nat.add_zero]
        have hxD : x / 2 ^ (8 - p) * 2 ^ (8 - p) < 256 :=
          Nat.lt_of_le_of_lt (Nat.div_mul_le_self _ _) hx
        rw [hmask, List.zipWith_cons_cons, hland, maskBytesOf_zero,
          zipWith_land_zero rest n hlen' hrest, hexp, hdiv]
        have harr : x / 2 ^ (8 - p) * 2 ^ (8 * n + (8 - p)) =
            x / 2 ^ (8 - p) * 2 ^ (8 - p) * 2 ^ (8 * n) := by
          rw [hsplitpow]; ring
        have hhead : x / 2 ^ (8 - p) * 2 ^ (8 - p) * 2 ^ (8 * n) / 2 ^ (8 * n) % 256 =
            x / 2 ^ (8 - p) * 2 ^ (8 - p) := by
          rw [Nat.mul_div_cancel _ hB]
          exact Nat.mod_eq_of_lt hxD
        have htail0 : ofNatBE n (x / 2 ^ (8 - p) * 2 ^ (8 - p) * 2 ^ (8 * n)) =
            List.replicate n 0 := by
          have h0 : ofNatBE n (x / 2 ^ (8 - p) * 2 ^ (8 - p) * 2 ^ (8 * n)) =
              ofNatBE n 0 := ofNatBE_congr n (by simp [Nat.mul_mod_left])
          rw [h0, ofNatBE_zero]
        rw [harr, ofNatBE_succ_cons, hhead, htail0]

/-- Numeric reading of `containsB` for well-formed blocks: an address lies
in the block exactly when clearing its low `8 * n - p` bits recovers the
network value. -/
theorem containsB_iff_aligned (n p : Nat) (net : IPNet) (hv : ValidNet net n p)
    (xs : List Nat) (hxv : validBytes xs) (hxl : xs.length = n) :
    containsB net xs = true ↔
      toNatBE xs / 2 ^ (8 * n - p) * 2 ^ (8 * n - p) = toNatBE net.network := by
  obtain ⟨hnl, hm, hp, hnv, hid⟩ := hv
  have hX : toNatBE xs < 2 ^ (8 * n) := by
    have := toNatBE_lt xs hxv
    rwa [hxl] at this
  have hbridge := zipWith_land_mask n p xs hxl hxv hp
  simp only [containsB, hxl, hnl, beq_self_eq_true, Bool.true_and, beq_iff_eq, hid,
    hm ▸ hbridge]
  constructor
  · intro h
    have := congrArg toNatBE h
    rw [toNatBE_ofNatBE,
      Nat.mod_eq_of_lt (Nat.lt_of_le_of_lt (Nat.div_mul_le_self _ _) hX)] at this
    exact this.symm
  · intro h
    have hrt := ofNatBE_toNatBE net.network hnv
    rw [hnl] at hrt
    rw [← h] at hrt
    exact hrt.symm

/-- The network value of a well-formed block is aligned to the block size. -/
theorem network_aligned (n p : Nat) (net : IPNet) (hv : ValidNet net n p) :
    toNatBE net.network / 2 ^ (8 * n - p) * 2 ^ (8 * n - p) = toNatBE net.network := by
  have hself : containsB net net.network = true := by
    simp [containsB]
  exact (containsB_iff_aligned n p net hv net.network hv.2.2.2.1 hv.1).mp hself

/-- Division characterization of membership in an aligned interval. -/
theorem aligned_div_iff (S W X : Nat) (hS : 0 < S) (hW : W / S * S = W) :
    X / S * S = W ↔ W ≤ X ∧ X < W + S := by
  constructor
  · intro h
    refine ⟨?_, ?_⟩
    · calc W = X / S * S := h.symm
        _ ≤ X := Nat.div_mul_le_self X S
    · have h2 : X < X / S * S + S := by
        conv_lhs => rw [← Nat.div_add_mod X S]
        have hm : X % S < S := Nat.mod_lt _ hS
        calc S * (X / S) + X % S < S * (X / S) + S := Nat.add_lt_add_left hm _
          _ = X / S * S + S := by ring
      rw [h] at h2
      exact h2
  · rintro ⟨h1, h2⟩
    have hq1 : W / S ≤ X / S := Nat.div_le_div_right h1
    have hq2 : X / S < W / S + 1 := by
      rw [Nat.div_lt_iff_lt_mul hS]
      calc X < W + S := h2
        _ = W / S * S + S := by rw [hW]
        _ = (W / S + 1) * S := by ring
    have hq : X / S = W / S := by omega
    rw [hq, hW]

theorem scanIPs_congr (oracle₁ oracle₂ : List Nat → Bool) (net : IPNet)
    (h : ∀ a, containsB net a = true → oracle₁ a = oracle₂ a) :
    ∀ fuel ip, scanIPs oracle₁ net fuel ip = scanIPs oracle₂ net fuel ip := by
  intro fuel
  induction fuel with
  | zero => intro ip; rfl
  | succ fuel ih =>
    intro ip
    simp only [scanIPs]
    by_cases hc : containsB net ip
    · rw [if_pos hc, if_pos hc, h ip hc]
      by_cases ho : oracle₂ ip
      · rw [if_pos ho, if_pos ho, ih]
      · rw [if_neg ho, if_neg ho]
    · rw [if_neg hc, if_neg hc]

theorem scanIPs_found (oracle : List Nat → Bool) (net : IPNet) :
    ∀ fuel ip a, scanIPs oracle net fuel ip = ScanResult.found a →
      oracle a = false ∧ containsB net a = true := by
  intro fuel
  induction fuel with
  | zero => intro ip a h; exact absurd h (by simp [scanIPs])
  | succ fuel ih =>
    intro ip a h
    simp only [scanIPs] at h
    by_cases hc : containsB net ip
    · rw [if_pos hc] at h
      by_cases ho : oracle ip
      · rw [if_pos ho] at h
        exact ih _ _ h
      · rw [if_neg ho] at h
        cases h
        exact ⟨Bool.eq_false_iff.mpr ho, hc⟩
    · rw [if_neg hc] at h
      cases h

theorem numScan_none_iff (free : Nat → Bool) :
    ∀ steps v, numScan free steps v = none ↔
      ∀ y, v ≤ y → y < v + steps → free y = false := by
  intro steps
  induction steps with
  | zero =>
    intro v
    constructor
    · intro _ y h1 h2
      omega
    · intro _
      rfl
  | succ steps ih =>
    intro v
    simp only [numScan]
    by_cases hf : free v
    · rw [if_pos hf]
      constructor
      · intro h
        exact Option.noConfusion h
      · intro h
        have hfv := h v (le_refl v) (by omega)
        rw [hf] at hfv
        exact absurd hfv (by simp)
    · rw [if_neg hf, ih (v + 1)]
      constructor
      · intro h y h1 h2
        by_cases hy : y = v
        · subst hy
          exact Bool.eq_false_iff.mpr hf
        · exact h y (by omega) (by omega)
      · intro h y h1 h2
        exact h y (by omega) (by omega)

theorem numScan_some_char (free : Nat → Bool) :
    ∀ steps v x, numScan free steps v = some x →
      v ≤ x ∧ x < v + steps ∧ free x = true ∧
        ∀ y, v ≤ y → y < x → free y = false := by
  intro steps
  induction steps with
  | zero => intro v x h; exact Option.noConfusion h
  | succ steps ih =>
    intro v x h
    simp only [numScan] at h
    by_cases hf : free v
    · rw [if_pos hf] at h
      have hx : v = x := by injection h
      subst hx
      exact ⟨le_refl _, by omega, hf, fun y h1 h2 => by omega⟩
    · rw [if_neg hf] at h
      obtain ⟨h1, h2, h3, h4⟩ := ih (v + 1) x h
      refine ⟨by omega, by omega, h3, ?_⟩
      intro y hy1 hy2
      by_cases hyv : y = v
      · subst hyv
        exact Bool.eq_false_iff.mpr hf
      · exact h4 y (by omega) hy2

/-- The block's address span fits below the end of the address space. -/
theorem network_add_size_le (n p : Nat) (net : IPNet) (hv : ValidNet net n p) :
    toNatBE net.network + 2 ^ (8 * n - p) ≤ 2 ^ (8 * n) := by
  have hS : 0 < (2 : Nat) ^ (8 * n - p) := Nat.pos_pow_of_pos _ (by omega)
  have hWal := network_aligned n p net hv
  have hW : toNatBE net.network < 2 ^ (8 * n) := by
    have := toNatBE_lt net.network hv.2.2.2.1
    rwa [hv.1] at this
  have hdvd : (2 : Nat) ^ (8 * n - p) ∣ 2 ^ (8 * n) := Nat.pow_dvd_pow 2 (by omega)
  have hNd : 2 ^ (8 * n) / 2 ^ (8 * n - p) * 2 ^ (8 * n - p) = 2 ^ (8 * n) :=
    Nat.div_mul_cancel hdvd
  have h1 : toNatBE net.network / 2 ^ (8 * n - p) < 2 ^ (8 * n) / 2 ^ (8 * n - p) := by
    have hlt : toNatBE net.network / 2 ^ (8 * n - p) * 2 ^ (8 * n - p) <
        2 ^ (8 * n) / 2 ^ (8 * n - p) * 2 ^ (8 * n - p) := by
      rw [hWal, hNd]
      exact hW
    exact Nat.lt_of_mul_lt_mul_right hlt
  calc toNatBE net.network + 2 ^ (8 * n - p)
      = toNatBE net.network / 2 ^ (8 * n - p) * 2 ^ (8 * n - p) + 2 ^ (8 * n - p) := by
        rw [hWal]
    _ = (toNatBE net.network / 2 ^ (8 * n - p) + 1) * 2 ^ (8 * n - p) := by ring
    _ ≤ 2 ^ (8 * n) / 2 ^ (8 * n - p) * 2 ^ (8 * n - p) :=
        Nat.mul_le_mul_right _ (by omega)
    _ = 2 ^ (8 * n) := hNd

/-- Every numeric value inside the block's span is contained in the block. -/
theorem containsB_of_interval (n p : Nat) (net : IPNet) (hv : ValidNet net n p)
    (X : Nat) (h1 : toNatBE net.network ≤ X)
    (h2 : X < toNatBE net.network + 2 ^ (8 * n - p)) :
    containsB net (ofNatBE n X) = true := by
  have hS : 0 < (2 : Nat) ^ (8 * n - p) := Nat.pos_pow_of_pos _ (by omega)
  have hle := network_add_size_le n p net hv
  have hXN : X < 2 ^ (8 * n) := by omega
  apply (containsB_iff_aligned n p net hv _ (validBytes_ofNatBE _ _)
    (length_ofNatBE _ _)).mpr
  rw [toNatBE_ofNatBE, Nat.mod_eq_of_lt hXN]
  exact (aligned_div_iff _ _ _ hS (network_aligned n p net hv)).mpr ⟨h1, h2⟩

/-- One step past the last address of a block with at least one mask bit is
no longer contained: this is the boundary the loop condition detects. -/
theorem containsB_boundary (n p : Nat) (net : IPNet) (hv : ValidNet net n p)
    (hp1 : 1 ≤ p) :
    containsB net (ofNatBE n (toNatBE net.network + 2 ^ (8 * n - p))) = false := by
  have hS : 0 < (2 : Nat) ^ (8 * n - p) := Nat.pos_pow_of_pos _ (by omega)
  have hle := network_add_size_le n p net hv
  have hWal := network_aligned n p net hv
  have hSN : (2 : Nat) ^ (8 * n - p) < 2 ^ (8 * n) := by
    have hp8 : p ≤ 8 * n := hv.2.2.1
    exact Nat.pow_lt_pow_right (by omega) (by omega)
  apply Bool.eq_false_iff.mpr
  intro hc
  have hchar := (containsB_iff_aligned n p net hv _ (validBytes_ofNatBE _ _)
    (length_ofNatBE _ _)).mp hc
  rw [toNatBE_ofNatBE] at hchar
  rcases Nat.lt_or_ge (toNatBE net.network + 2 ^ (8 * n - p)) (2 ^ (8 * n)) with hlt | hge
  · rw [Nat.mod_eq_of_lt hlt] at hchar
    have hq : (toNatBE net.network + 2 ^ (8 * n - p)) / 2 ^ (8 * n - p) *
        2 ^ (8 * n - p) = toNatBE net.network + 2 ^ (8 * n - p) := by
      conv_lhs => rw [← hWal]
      have harr : toNatBE net.network / 2 ^ (8 * n - p) * 2 ^ (8 * n - p) +
          2 ^ (8 * n - p) =
          (toNatBE net.network / 2 ^ (8 * n - p) + 1) * 2 ^ (8 * n - p) := by ring
      rw [harr, Nat.mul_div_cancel _ hS, Nat.add_mul, Nat.one_mul, hWal]
    rw [hq] at hchar
    omega
  · have heq : toNatBE net.network + 2 ^ (8 * n - p) = 2 ^ (8 * n) := by omega
    rw [heq, Nat.mod_self] at hchar
    simp only [Nat.zero_div, Nat.zero_mul] at hchar
    omega

/-- The scan loop, started at offset `j` past the network address with
`steps = blocksize - j` candidates left, agrees with the reference linear
search `numScan` provided the fuel covers the remaining candidates. -/
theorem scanIPs_eq_numScan (n p : Nat) (net : IPNet) (oracle : List Nat → Bool)
    (hv : ValidNet net n p) (hp1 : 1 ≤ p) :
    ∀ steps j fuel, 1 ≤ j → j + steps = 2 ^ (8 * n - p) → steps + 1 ≤ fuel →
      scanIPs oracle net fuel (ofNatBE n (toNatBE net.network + j)) =
        match numScan (fun x => !oracle (ofNatBE n x)) steps
            (toNatBE net.network + j) with
        | some x => ScanResult.found (ofNatBE n x)
        | none => ScanResult.exhausted := by
  intro steps
  induction steps with
  | zero =>
    intro j fuel hj hjS hfuel
    obtain ⟨f, rfl⟩ : ∃ f, fuel = f + 1 := ⟨fuel - 1, by omega⟩
    have hj' : j = 2 ^ (8 * n - p) := by omega
    subst hj'
    have hb := containsB_boundary n p net hv hp1
    simp [scanIPs, hb, numScan]
  | succ steps ih =>
    intro j fuel hj hjS hfuel
    obtain ⟨f, rfl⟩ : ∃ f, fuel = f + 1 := ⟨fuel - 1, by omega⟩
    have hcont : containsB net (ofNatBE n (toNatBE net.network + j)) = true :=
      containsB_of_interval n p net hv _ (by omega) (by omega)
    simp only [scanIPs, hcont, if_true]
    by_cases ho : oracle (ofNatBE n (toNatBE net.network + j))
    · rw [if_pos ho, incrementIP_ofNatBE]
      have harith : toNatBE net.network + j + 1 = toNatBE net.network + (j + 1) := by
        omega
      rw [harith, ih (j + 1) f (by omega) (by omega) (by omega)]
      have hfree : (!oracle (ofNatBE n (toNatBE net.network + j))) = false := by
        simp [ho]
      simp only [numScan, hfree, Bool.false_eq_true, if_false, harith]
    · rw [if_neg ho]
      have hfree : (!oracle (ofNatBE n (toNatBE net.network + j))) = true := by
        simp [ho]
      simp only [numScan, hfree, if_true]

theorem findAvailableIP_eq_numScan (n p : Nat) (net : IPNet)
    (oracle : List Nat → Bool) (hv : ValidNet net n p) (hp1 : 1 ≤ p) :
    findAvailableIP net oracle =
      match numScan (fun x => !oracle (ofNatBE n x)) (2 ^ (8 * n - p) - 1)
          (toNatBE net.network + 1) with
      | some x => ScanResult.found (ofNatBE n x)
      | none => ScanResult.exhausted := by
  have hS : 0 < (2 : Nat) ^ (8 * n - p) := Nat.pos_pow_of_pos _ (by omega)
  have hSN : (2 : Nat) ^ (8 * n - p) ≤ 2 ^ (8 * n) :=
    Nat.pow_le_pow_right (by omega) (by omega)
  have h0 := ofNatBE_toNatBE net.network hv.2.2.2.1
  rw [hv.1] at h0
  have hstart : incrementIP net.network = ofNatBE n (toNatBE net.network + 1) := by
    calc incrementIP net.network
        = incrementIP (ofNatBE n (toNatBE net.network)) := by rw [h0]
      _ = ofNatBE n (toNatBE net.network + 1) := incrementIP_ofNatBE n _
  show scanIPs oracle net (2 ^ (8 * net.network.length)) (incrementIP net.network) = _
  rw [hv.1, hstart]
  exact scanIPs_eq_numScan n p net oracle hv hp1 (2 ^ (8 * n - p) - 1) 1
    (2 ^ (8 * n)) (le_refl 1) (by omega) (by omega)

/-- What a successful scan returns: a valid contained address strictly
above the network address, free per the oracle, and minimal among such. -/
theorem findAvailableIP_found_char (n p : Nat) (net : IPNet)
    (oracle : List Nat → Bool) (hv : ValidNet net n p) (hp1 : 1 ≤ p) :
    ∀ a, findAvailableIP net oracle = ScanResult.found a →
      validBytes a ∧ a.length = n ∧ containsB net a = true ∧
      toNatBE net.network < toNatBE a ∧ oracle a = false ∧
      ∀ b, validBytes b → b.length = n → containsB net b = true →
        toNatBE net.network < toNatBE b → toNatBE b < toNatBE a →
          oracle b = true := by
  intro a h
  have hS : 0 < (2 : Nat) ^ (8 * n - p) := Nat.pos_pow_of_pos _ (by omega)
  have hle := network_add_size_le n p net hv
  rw [findAvailableIP_eq_numScan n p net oracle hv hp1] at h
  cases hns : numScan (fun x => !oracle (ofNatBE n x)) (2 ^ (8 * n - p) - 1)
      (toNatBE net.network + 1) with
  | none => rw [hns] at h; exact absurd h (by simp)
  | some x =>
    rw [hns] at h
    have ha : ScanResult.found (ofNatBE n x) = ScanResult.found a := h
    have hax : a = ofNatBE n x := by
      injection ha with ha
      exact ha.symm
    subst hax
    obtain ⟨h1, h2, h3, h4⟩ := numScan_some_char _ _ _ _ hns
    have hxN : x < 2 ^ (8 * n) := by omega
    have htx : toNatBE (ofNatBE n x) = x := by
      rw [toNatBE_ofNatBE, Nat.mod_eq_of_lt hxN]
    refine ⟨validBytes_ofNatBE n x, length_ofNatBE n x, ?_, ?_, ?_, ?_⟩
    · exact containsB_of_interval n p net hv x (by omega) (by omega)
    · rw [htx]; omega
    · have := h3
      simp only [Bool.not_eq_true'] at this
      exact this
    · intro b hbv hbl hbc hbgt hblt
      have hXb := (containsB_iff_aligned n p net hv b hbv hbl).mp hbc
      have hint := (aligned_div_iff _ _ _ hS (network_aligned n p net hv)).mp hXb
      rw [htx] at hblt
      have hfree := h4 (toNatBE b) (by omega) (by omega)
      have hrtb := ofNatBE_toNatBE b hbv
      rw [hbl] at hrtb
      rw [← hrtb]
      simpa using hfree

/-- What an exhausted scan means: every contained address strictly above
the network address is taken per the oracle. -/
theorem findAvailableIP_exhausted_char (n p : Nat) (net : IPNet)
    (oracle : List Nat → Bool) (hv : ValidNet net n p) (hp1 : 1 ≤ p) :
    findAvailableIP net oracle = ScanResult.exhausted →
      ∀ b, validBytes b → b.length = n → containsB net b = true →
        toNatBE net.network < toNatBE b → oracle b = true := by
  intro h b hbv hbl hbc hbgt
  have hS : 0 < (2 : Nat) ^ (8 * n - p) := Nat.pos_pow_of_pos _ (by omega)
  rw [findAvailableIP_eq_numScan n p net oracle hv hp1] at h
  cases hns : numScan (fun x => !oracle (ofNatBE n x)) (2 ^ (8 * n - p) - 1)
      (toNatBE net.network + 1) with
  | some x => rw [hns] at h; exact absurd h (by simp)
  | none =>
    have hall := (numScan_none_iff _ _ _).mp hns
    have hXb := (containsB_iff_aligned n p net hv b hbv hbl).mp hbc
    have hint := (aligned_div_iff _ _ _ hS (network_aligned n p net hv)).mp hXb
    have hfree := hall (toNatBE b) (by omega) (by omega)
    have hrtb := ofNatBE_toNatBE b hbv
    rw [hbl] at hrtb
    rw [← hrtb]
    simpa using hfree

/-- With at least one mask bit the scan never runs out of fuel: the loop
of the source terminates on every oracle. -/
theorem findAvailableIP_total (n p : Nat) (net : IPNet)
    (oracle : List Nat → Bool) (hv : ValidNet net n p) (hp1 : 1 ≤ p) :
    findAvailableIP net oracle = ScanResult.exhausted ∨
      ∃ a, findAvailableIP net oracle = ScanResult.found a := by
  rw [findAvailableIP_eq_numScan n p net oracle hv hp1]
  cases numScan (fun x => !oracle (ofNatBE n x)) (2 ^ (8 * n - p) - 1)
      (toNatBE net.network + 1) with
  | none => exact Or.inl rfl
  | some x => exact Or.inr ⟨ofNatBE n x, rfl⟩

/-- If every contained address strictly above the network address is taken,
the scan reports exhaustion (it never consults the oracle outside). -/
theorem findAvailableIP_all_taken (n p : Nat) (net : IPNet)
    (oracle : List Nat → Bool) (hv : ValidNet net n p) (hp1 : 1 ≤ p)
    (h : ∀ ip, containsB net ip = true → toNatBE net.network < toNatBE ip →
      oracle ip = true) :
    findAvailableIP net oracle = ScanResult.exhausted := by
  have hS : 0 < (2 : Nat) ^ (8 * n - p) := Nat.pos_pow_of_pos _ (by omega)
  have hle := network_add_size_le n p net hv
  rw [findAvailableIP_eq_numScan n p net oracle hv hp1]
  have hnone : numScan (fun x => !oracle (ofNatBE n x)) (2 ^ (8 * n - p) - 1)
      (toNatBE net.network + 1) = none := by
    apply (numScan_none_iff _ _ _).mpr
    intro y h1 h2
    have hyN : y < 2 ^ (8 * n) := by omega
    have hcont := containsB_of_interval n p net hv y (by omega) (by omega)
    have hgt : toNatBE net.network < toNatBE (ofNatBE n y) := by
      rw [toNatBE_ofNatBE, Nat.mod_eq_of_lt hyN]
      omega
    have := h (ofNatBE n y) hcont hgt
    simp [this]
  rw [hnone]

/-- On the `0.0.0.0/0` block with everything taken but `0.0.0.0`, the scan
walks from any nonzero value to the end of the address space, wraps, and
returns the all-zero network address. -/
theorem scanIPs_zeroNet_wraps :
    ∀ d k fuel, k + d = 2 ^ 32 → 1 ≤ k → d < fuel →
      scanIPs takenExceptZero zeroNet4 fuel (ofNatBE 4 k) =
        ScanResult.found (ofNatBE 4 0) := by
  intro d
  induction d with
  | zero =>
    intro k fuel hk h1 hf
    obtain ⟨f, rfl⟩ : ∃ f, fuel = f + 1 := ⟨fuel - 1, by omega⟩
    have hk' : k = 2 ^ 32 := by omega
    subst hk'
    have hof : ofNatBE 4 (2 ^ 32) = ofNatBE 4 0 := ofNatBE_congr 4 (by norm_num)
    have hz : ofNatBE 4 0 = [0, 0, 0, 0] := rfl
    rw [hof, hz]
    have hc : containsB zeroNet4 [0, 0, 0, 0] = true := by decide
    have ht : ¬ takenExceptZero [0, 0, 0, 0] = true := by decide
    simp only [scanIPs]
    rw [if_pos hc, if_neg ht]
  | succ d ih =>
    intro k fuel hk h1 hf
    obtain ⟨f, rfl⟩ : ∃ f, fuel = f + 1 := ⟨fuel - 1, by omega⟩
    have hkN : k < 2 ^ 32 := by omega
    have h4 : (ofNatBE 4 k).length = 4 := length_ofNatBE 4 k
    have hcont : containsB zeroNet4 (ofNatBE 4 k) = true := by
      have hz := zipWith_land_zero (ofNatBE 4 k) 4 h4 (validBytes_ofNatBE 4 k)
      have hrep : (List.replicate 4 0 : List Nat) = [0, 0, 0, 0] := rfl
      rw [hrep] at hz
      simp [containsB, zeroNet4, h4, hz]
      decide
    have hne : ofNatBE 4 k ≠ [0, 0, 0, 0] := by
      intro heq
      have h0 := congrArg toNatBE heq
      have h32 : (2 : Nat) ^ (8 * 4) = 2 ^ 32 := by norm_num
      rw [toNatBE_ofNatBE, h32, Nat.mod_eq_of_lt hkN] at h0
      have hz : toNatBE [0, 0, 0, 0] = 0 := rfl
      omega
    have htaken : takenExceptZero (ofNatBE 4 k) = true := by
      simp [takenExceptZero, hne]
    have step : scanIPs takenExceptZero zeroNet4 (f + 1) (ofNatBE 4 k) =
        scanIPs takenExceptZero zeroNet4 f (incrementIP (ofNatBE 4 k)) := by
      simp only [scanIPs]
      rw [if_pos hcont, if_pos htaken]
    rw [step, incrementIP_ofNatBE]
    exact ih (k + 1) f (by omega) (by omega) (by omega)

theorem parseByte_lt (f : List Char) (v : Nat) (h : parseByte f = some v) :
    v < 256 := by
  unfold parseByte at h
  split_ifs at h
  injection h with h
  omega

theorem parseMaskLen_le (l : List Char) (p : Nat) (h : parseMaskLen l = some p) :
    p ≤ 32 := by
  unfold parseMaskLen at h
  split_ifs at h
  injection h with h
  omega

theorem parseIPv4_valid (l : List Char) (ip : List Nat)
    (h : parseIPv4 l = some ip) : ip.length = 4 ∧ validBytes ip := by
  unfold parseIPv4 at h
  split at h
  · split at h
    · rename_i w x y z hw hx hy hz
      injection h with h
      subst h
      refine ⟨rfl, ?_⟩
      intro b hb
      rcases List.mem_cons.mp hb with rfl | hb
      · exact parseByte_lt _ _ hw
      rcases List.mem_cons.mp hb with rfl | hb
      · exact parseByte_lt _ _ hx
      rcases List.mem_cons.mp hb with rfl | hb
      · exact parseByte_lt _ _ hy
      rcases List.mem_cons.mp hb with rfl | hb
      · exact parseByte_lt _ _ hz
      · exact absurd hb (List.not_mem_nil b)
    · exact Option.noConfusion h
  · exact Option.noConfusion h

/-- The block built from parsed address bytes and a mask length is
well-formed. -/
theorem parseCIDR_built_valid (ip : List Nat) (p : Nat) (hl4 : ip.length = 4)
    (hvb : validBytes ip) (hple : p ≤ 32) :
    ValidNet ⟨List.zipWith Nat.land ip (maskBytesOf 4 p), maskBytesOf 4 p⟩ 4 p := by
  have hbridge := zipWith_land_mask 4 p ip hl4 hvb (by omega)
  have hS : 0 < (2 : Nat) ^ (8 * 4 - p) := Nat.pos_pow_of_pos _ (by omega)
  refine ⟨?_, rfl, by omega, ?_, ?_⟩
  · show (List.zipWith Nat.land ip (maskBytesOf 4 p)).length = 4
    rw [hbridge, length_ofNatBE]
  · show validBytes (List.zipWith Nat.land ip (maskBytesOf 4 p))
    rw [hbridge]
    exact validBytes_ofNatBE _ _
  · show List.zipWith Nat.land (List.zipWith Nat.land ip (maskBytesOf 4 p))
      (maskBytesOf 4 p) = List.zipWith Nat.land ip (maskBytesOf 4 p)
    rw [hbridge]
    have h2 := zipWith_land_mask 4 p
      (ofNatBE 4 (toNatBE ip / 2 ^ (8 * 4 - p) * 2 ^ (8 * 4 - p)))
      (length_ofNatBE _ _) (validBytes_ofNatBE _ _) (by omega)
    rw [h2, toNatBE_ofNatBE]
    have hXS : toNatBE ip / 2 ^ (8 * 4 - p) * 2 ^ (8 * 4 - p) ≤ toNatBE ip :=
      Nat.div_mul_le_self _ _
    have hXlt : toNatBE ip < 2 ^ (8 * 4) := by
      have := toNatBE_lt ip hvb
      rwa [hl4] at this
    rw [Nat.mod_eq_of_lt (by omega), Nat.mul_div_cancel _ hS]

/-- Every block `parseCIDR` produces is well-formed. -/
theorem parseCIDR_valid (s : String) (p : Nat) (net : IPNet)
    (h : parseCIDR s = some (p, net)) : ValidNet net 4 p := by
  unfold parseCIDR at h
  split at h
  · split at h
    · rename_i ip p2 hip hp2
      rw [Option.some.injEq, Prod.mk.injEq] at h
      obtain ⟨h1, h2⟩ := h
      obtain ⟨hl4, hvb⟩ := parseIPv4_valid _ _ hip
      have hple := parseMaskLen_le _ _ hp2
      rw [← h2, ← h1]
      exact parseCIDR_built_valid ip p2 hl4 hvb hple
    · exact Option.noConfusion h
  · exact Option.noConfusion h

theorem filter_ne_nil_iff_exists (p : Row → Bool) (st : Store) :
    st.filter p ≠ [] ↔ ∃ r ∈ st, p r = true := by
  constructor
  · intro h
    cases hf : st.filter p with
    | nil => exact absurd hf h
    | cons r rest =>
      have hr : r ∈ st.filter p := by rw [hf]; exact List.mem_cons_self _ _
      have := List.mem_filter.mp hr
      exact ⟨r, this.1, this.2⟩
  · rintro ⟨r, hr, hp⟩ hnil
    have : r ∈ st.filter p := List.mem_filter.mpr ⟨hr, hp⟩
    rw [hnil] at this
    exact absurd this (List.not_mem_nil r)

theorem isIPReserved_true_iff (st : Store) (ip cidr tenant : String)
    (hip : ip ≠ "") :
    isIPReserved st ip cidr tenant = true ↔
      st.filter (rowMatches cidr ip tenant) ≠ [] := by
  constructor
  · intro h hnil
    unfold isIPReserved at h
    rw [hnil] at h
    simp only [beq_iff_eq] at h
    exact hip h
  · intro h
    unfold isIPReserved
    cases hf : st.filter (rowMatches cidr ip tenant) with
    | nil => exact absurd hf h
    | cons r rest =>
      have hr : r ∈ st.filter (rowMatches cidr ip tenant) := by
        rw [hf]
        exact List.mem_cons_self _ _
      have hm := (List.mem_filter.mp hr).2
      unfold rowMatches at hm
      simp only [Bool.and_eq_true] at hm
      exact hm.1.2

theorem rowMatches_empty_tenant (cidr ip : String) (r : Row) :
    rowMatches cidr ip "" r = (r.cidr == cidr && r.ip == ip) := by
  simp [rowMatches]

theorem rowMatches_broaden (cidr ip tenant : String) (r : Row)
    (h : rowMatches cidr ip tenant r = true) :
    rowMatches cidr ip "" r = true := by
  simp only [rowMatches, Bool.and_eq_true] at h ⊢
  exact ⟨h.1, by simp⟩

/-- A candidate returned by the string-level scan was reported free by the
`isIPReserved` oracle over the same store. -/
theorem findAvailableIPStr_not_reserved (st : Store) (cidr tenant ip : String)
    (h : findAvailableIPStr st cidr tenant = (ip, true)) :
    isIPReserved st ip cidr tenant = false := by
  unfold findAvailableIPStr at h
  split at h
  · exact absurd (congrArg Prod.snd h) (by simp)
  · rename_i p net heqp
    split at h
    · rename_i ipB hfound
      have hfree := (scanIPs_found _ _ _ _ _ hfound).1
      have hfst := congrArg Prod.fst h
      simp only at hfst
      rw [← hfst]
      exact hfree
    · exact absurd (congrArg Prod.snd h) (by simp)

theorem countP_dupKey_le_one (st : Store) (cidr tenant ip : String)
    (hu : uniqueTriples st) : st.countP (dupKey cidr tenant ip) ≤ 1 := by
  induction st with
  | nil => simp [List.countP_nil]
  | cons r rest ih =>
    obtain ⟨hr, hrest⟩ := List.pairwise_cons.mp hu
    rw [List.countP_cons]
    by_cases hp : dupKey cidr tenant ip r = true
    · have hz : rest.countP (dupKey cidr tenant ip) = 0 := by
        rw [List.countP_eq_zero]
        intro b hb hpb
        unfold dupKey at hp hpb
        simp only [Bool.and_eq_true, beq_iff_eq] at hp hpb
        exact hr b hb ⟨hp.1.1.trans hpb.1.1.symm, hp.1.2.trans hpb.1.2.symm,
          hp.2.trans hpb.2.symm⟩
      simp [hp, hz]
    · have := ih hrest
      simp only [Bool.not_eq_true] at hp
      simp [hp]
      omega

/-- C7: `incrementIP` on an `n`-byte address computes the big-endian byte
representation of `(value + 1) mod 2 ^ (8 n)` — byte-wise increment with
carry propagation, uniformly in the byte length, so for 4-byte and
16-byte addresses alike — and the scanner's first candidate is the
block's network address incremented by one: whenever that first candidate
is contained in the block and free, the scan returns exactly it. -/
theorem incrementIP_bigendian_add_one :
    (∀ ip : List Nat, validBytes ip →
      toNatBE (incrementIP ip) = (toNatBE ip + 1) % 2 ^ (8 * ip.length) ∧
      (incrementIP ip).length = ip.length ∧ validBytes (incrementIP ip)) ∧
    (∀ (net : IPNet) (oracle : List Nat → Bool),
      containsB net (incrementIP net.network) = true →
      oracle (incrementIP net.network) = false →
      findAvailableIP net oracle = ScanResult.found (incrementIP net.network)) := by
  constructor
  · intro ip h
    exact ⟨toNatBE_incrementIP ip h, incrementIP_length ip, incrementIP_valid ip h⟩
  · intro net oracle hc ho
    show scanIPs oracle net (2 ^ (8 * net.network.length)) (incrementIP net.network) =
      ScanResult.found (incrementIP net.network)
    have hpos : 0 < 2 ^ (8 * net.network.length) := Nat.pos_pow_of_pos _ (by omega)
    obtain ⟨f, hf⟩ : ∃ f, 2 ^ (8 * net.network.length) = f + 1 :=
      ⟨2 ^ (8 * net.network.length) - 1, by omega⟩
    rw [hf]
    simp only [scanIPs]
    rw [if_pos hc, if_neg (by simp [ho])]

/-- Witness for C7 at a 4-byte address, a 16-byte address, and one scan. -/
theorem incrementIP_bigendian_add_one_witness :
    (toNatBE (incrementIP [10, 0, 0, 255]) =
        (toNatBE [10, 0, 0, 255] + 1) %
          2 ^ (8 * ([10, 0, 0, 255] : List Nat).length) ∧
      (incrementIP [10, 0, 0, 255]).length = ([10, 0, 0, 255] : List Nat).length ∧
      validBytes (incrementIP [10, 0, 0, 255])) ∧
    (toNatBE (incrementIP (List.replicate 16 255)) =
        (toNatBE (List.replicate 16 255) + 1) %
          2 ^ (8 * (List.replicate (16 : Nat) (255 : Nat)).length) ∧
      (incrementIP (List.replicate 16 255)).length =
        (List.replicate (16 : Nat) (255 : Nat)).length ∧
      validBytes (incrementIP (List.replicate 16 255))) ∧
    findAvailableIP net24 (fun _ => false) =
      ScanResult.found (incrementIP net24.network) :=
  ⟨incrementIP_bigendian_add_one.1 [10, 0, 0, 255] (by decide),
   incrementIP_bigendian_add_one.1 (List.replicate 16 255) (by decide),
   incrementIP_bigendian_add_one.2 net24 (fun _ => false) (by decide) rfl⟩

/-- C2: the scan result depends only on the oracle's values at addresses
the block contains (the is-taken predicate is applied only to contained
addresses); incrementing the last address `10.0.0.255` of `10.0.0.0/24`
yields `10.0.1.0`, which the block does not contain; and once every
contained address above the network address is taken the scan reports
exhaustion — the wrapped-out candidate is never queried. -/
theorem scanner_queries_only_contained_addresses :
    (∀ (net : IPNet) (oracle₁ oracle₂ : List Nat → Bool),
      (∀ a, containsB net a = true → oracle₁ a = oracle₂ a) →
      findAvailableIP net oracle₁ = findAvailableIP net oracle₂) ∧
    incrementIP [10, 0, 0, 255] = [10, 0, 1, 0] ∧
    containsB net24 [10, 0, 1, 0] = false ∧
    (∀ oracle : List Nat → Bool,
      (∀ ip, containsB net24 ip = true → toNatBE net24.network < toNatBE ip →
        oracle ip = true) →
      findAvailableIP net24 oracle = ScanResult.exhausted) := by
  refine ⟨?_, by decide, by decide, ?_⟩
  · intro net o1 o2 h
    exact scanIPs_congr o1 o2 net h _ _
  · intro oracle h
    exact findAvailableIP_all_taken 4 24 net24 oracle (by decide) (by omega) h

/-- Witness for C2: equal oracles trivially agree on the block, and the
all-taken oracle exhausts `10.0.0.0/24`. -/
theorem scanner_queries_only_contained_addresses_witness :
    findAvailableIP net24 (fun _ => true) = findAvailableIP net24 (fun _ => true) ∧
    findAvailableIP net24 (fun _ => true) = ScanResult.exhausted :=
  ⟨scanner_queries_only_contained_addresses.1 net24 (fun _ => true) (fun _ => true)
      (fun _ _ => rfl),
   scanner_queries_only_contained_addresses.2.2.2 (fun _ => true)
      (fun _ _ _ => rfl)⟩

/-- C10: for every well-formed block with at least one mask bit the scan
loop terminates on every oracle — it reports exhaustion or a found
address, never running out of the one-full-cycle fuel — and every block
`parseCIDR` accepts is such a well-formed block. -/
theorem findAvailableIP_terminates :
    (∀ (n p : Nat) (net : IPNet) (oracle : List Nat → Bool),
      ValidNet net n p → 1 ≤ p →
      findAvailableIP net oracle = ScanResult.exhausted ∨
        ∃ a, findAvailableIP net oracle = ScanResult.found a) ∧
    (∀ (s : String) (p : Nat) (net : IPNet),
      parseCIDR s = some (p, net) → ValidNet net 4 p) := by
  exact ⟨fun n p net oracle hv hp => findAvailableIP_total n p net oracle hv hp,
    fun s p net h => parseCIDR_valid s p net h⟩

/-- Witness for C10 on `10.0.0.0/24` with the all-free oracle. -/
theorem findAvailableIP_terminates_witness :
    (findAvailableIP net24 (fun _ => false) = ScanResult.exhausted ∨
      ∃ a, findAvailableIP net24 (fun _ => false) = ScanResult.found a) ∧
    ValidNet net24 4 24 :=
  ⟨findAvailableIP_terminates.1 4 24 net24 (fun _ => false) (by decide) (by omega),
   findAvailableIP_terminates.2 "10.0.0.0/24" 24 net24 (by decide)⟩

/-- C1 (amended: blocks with prefix length at least 1): the scan returns
the numerically smallest contained address strictly greater than the
network address that the oracle reports free, and reports exhaustion
exactly when no contained address above the network address is free.
The amendment excludes the prefix-0 block, where the source loop wraps
past the end of the address space back into the block; see
`scanner_slash_zero_returns_network_address`. -/
theorem scanner_returns_least_free_above_network (n p : Nat) (net : IPNet)
    (oracle : List Nat → Bool) (hv : ValidNet net n p) (hp1 : 1 ≤ p) :
    ((∃ a, findAvailableIP net oracle = ScanResult.found a) ∨
      findAvailableIP net oracle = ScanResult.exhausted) ∧
    (∀ a, findAvailableIP net oracle = ScanResult.found a →
      validBytes a ∧ a.length = n ∧ containsB net a = true ∧
      toNatBE net.network < toNatBE a ∧ oracle a = false ∧
      ∀ b, validBytes b → b.length = n → containsB net b = true →
        toNatBE net.network < toNatBE b → toNatBE b < toNatBE a →
          oracle b = true) ∧
    (findAvailableIP net oracle = ScanResult.exhausted →
      ∀ b, validBytes b → b.length = n → containsB net b = true →
        toNatBE net.network < toNatBE b → oracle b = true) := by
  refine ⟨?_, findAvailableIP_found_char n p net oracle hv hp1,
    findAvailableIP_exhausted_char n p net oracle hv hp1⟩
  rcases findAvailableIP_total n p net oracle hv hp1 with h | h
  · exact Or.inr h
  · exact Or.inl h

/-- Witness for C1 on `10.0.0.0/24` with only `10.0.0.1` taken. -/
theorem scanner_returns_least_free_above_network_witness :
    ValidNet net24 4 24 ∧
    ((∃ a, findAvailableIP net24 (fun a => a == [10, 0, 0, 1]) =
        ScanResult.found a) ∨
      findAvailableIP net24 (fun a => a == [10, 0, 0, 1]) =
        ScanResult.exhausted) :=
  ⟨by decide,
   (scanner_returns_least_free_above_network 4 24 net24
      (fun a => a == [10, 0, 0, 1]) (by decide) (by omega)).1⟩

/-- C1 counterexample: `0.0.0.0/0` is a block the source accepts, every
4-byte address is contained in it, and under the oracle that marks
everything but `0.0.0.0` taken no contained address strictly greater than
the network address is free — the claim then demands exhaustion — yet the
scan wraps around the address space and returns the network address
`0.0.0.0` itself. -/
theorem scanner_slash_zero_returns_network_address :
    ValidNet zeroNet4 4 0 ∧
    takenExceptZero [0, 0, 0, 0] = false ∧
    (∀ a, validBytes a → a.length = 4 → containsB zeroNet4 a = true) ∧
    (∀ a, toNatBE zeroNet4.network < toNatBE a → takenExceptZero a = true) ∧
    findAvailableIP zeroNet4 takenExceptZero = ScanResult.found [0, 0, 0, 0] := by
  refine ⟨by decide, by decide, ?_, ?_, ?_⟩
  · intro a hv hl
    have hz := zipWith_land_zero a 4 hl hv
    have hrep : (List.replicate 4 0 : List Nat) = [0, 0, 0, 0] := rfl
    rw [hrep] at hz
    simp [containsB, zeroNet4, hl, hz]
    decide
  · intro a ha
    have hne : a ≠ [0, 0, 0, 0] := by
      intro h
      rw [h] at ha
      exact absurd ha (lt_irrefl _)
    simp [takenExceptZero, hne]
  · show scanIPs takenExceptZero zeroNet4 (2 ^ (8 * zeroNet4.network.length))
      (incrementIP zeroNet4.network) = ScanResult.found [0, 0, 0, 0]
    have hstart : incrementIP zeroNet4.network = ofNatBE 4 1 := by decide
    have h32 : 2 ^ (8 * zeroNet4.network.length) = 2 ^ 32 := by decide
    rw [hstart, h32]
    have hrun := scanIPs_zeroNet_wraps (2 ^ 32 - 1) 1 (2 ^ 32) (by norm_num)
      (le_refl 1) (by norm_num)
    rw [hrun]
    rfl

/-- C3 counterexample: at the empty-string address with an empty store the
empty-tenant check returns `true` although no reservation exists at all —
the zero value `""` left by the failed row scan compares equal to the
probed address. -/
theorem isIPReserved_empty_address_counterexample :
    isIPReserved [] "" "10.0.0.0/24" "" = true ∧
    (([] : Store).any
      (fun r => r.cidr == "10.0.0.0/24" && r.ip == "")) = false := by
  exact ⟨rfl, rfl⟩

/-- C3 (amended: nonempty addresses): with an empty tenant the check is a
tenant-agnostic membership test on `(cidr, address)` — it holds exactly
when some live reservation with that cidr and address exists for any
tenant — and a tenant-scoped success always implies the empty-tenant
success, so the empty tenant broadens the match.  The amendment excludes
the empty-string address, where the check returns `true` even on an empty
store; see `isIPReserved_empty_address_counterexample`. -/
theorem isIPReserved_empty_tenant_membership (st : Store)
    (cidr ip tenant : String) (hip : ip ≠ "") :
    (isIPReserved st ip cidr "" = true ↔
      ∃ r ∈ st, r.cidr = cidr ∧ r.ip = ip) ∧
    (isIPReserved st ip cidr tenant = true →
      isIPReserved st ip cidr "" = true) := by
  constructor
  · rw [isIPReserved_true_iff st ip cidr "" hip, filter_ne_nil_iff_exists]
    constructor
    · rintro ⟨r, hr, hm⟩
      rw [rowMatches_empty_tenant] at hm
      simp only [Bool.and_eq_true, beq_iff_eq] at hm
      exact ⟨r, hr, hm⟩
    · rintro ⟨r, hr, hc, hi⟩
      refine ⟨r, hr, ?_⟩
      rw [rowMatches_empty_tenant]
      simp [hc, hi]
  · intro h
    rw [isIPReserved_true_iff st ip cidr tenant hip,
      filter_ne_nil_iff_exists] at h
    rw [isIPReserved_true_iff st ip cidr "" hip, filter_ne_nil_iff_exists]
    obtain ⟨r, hr, hm⟩ := h
    exact ⟨r, hr, rowMatches_broaden cidr ip tenant r hm⟩

/-- Witness for C3 on a one-row store. -/
theorem isIPReserved_empty_tenant_membership_witness :
    (isIPReserved [⟨"10.0.0.0/24", "a", "10.0.0.1", "x"⟩]
        "10.0.0.1" "10.0.0.0/24" "" = true ↔
      ∃ r ∈ ([⟨"10.0.0.0/24", "a", "10.0.0.1", "x"⟩] : Store),
        r.cidr = "10.0.0.0/24" ∧ r.ip = "10.0.0.1") ∧
    (isIPReserved [⟨"10.0.0.0/24", "a", "10.0.0.1", "x"⟩]
        "10.0.0.1" "10.0.0.0/24" "a" = true →
      isIPReserved [⟨"10.0.0.0/24", "a", "10.0.0.1", "x"⟩]
        "10.0.0.1" "10.0.0.0/24" "" = true) :=
  isIPReserved_empty_tenant_membership
    [⟨"10.0.0.0/24", "a", "10.0.0.1", "x"⟩] "10.0.0.0/24" "10.0.0.1" "a"
    (by decide)

/-- C4: whenever `reserveIP` returns an error — no available address, the
already-reserved re-check, or an insert failure — the store it returns is
the store it was given: a failed reserve call leaves no partial state. -/
theorem reserveIP_failure_leaves_store_unchanged (backendFail : Row → Bool)
    (st : Store) (cidr tenant purpose : String) (e : ReserveErr) (st2 : Store)
    (h : reserveIP backendFail st cidr tenant purpose = (Except.error e, st2)) :
    st2 = st := by
  unfold reserveIP at h
  split at h
  · exact (congrArg Prod.snd h).symm
  · split_ifs at h
    · exact (congrArg Prod.snd h).symm
    · exact (congrArg Prod.snd h).symm
    · exact absurd (congrArg Prod.fst h) (by simp)

/-- Witness for C4: a failing call (unparseable block) on the empty store
returns the empty store. -/
theorem reserveIP_failure_leaves_store_unchanged_witness :
    reserveIP (fun _ => false) [] "bad" "t" "p" =
      (Except.error ReserveErr.noAvailable, ([] : Store)) ∧
    ([] : Store) = [] :=
  ⟨by decide,
   reserveIP_failure_leaves_store_unchanged (fun _ => false) [] "bad" "t" "p"
     ReserveErr.noAvailable [] (by decide)⟩

theorem countP_not_add (P : Row → Bool) (st : Store) :
    (st.filter (fun r => !P r)).length + st.countP P = st.length := by
  induction st with
  | nil => rfl
  | cons r rest ih =>
    by_cases h : P r = true
    · simp [List.filter_cons, List.countP_cons, h]
      omega
    · simp [List.filter_cons, List.countP_cons, h]
      omega

/-- C5: `releaseReservedIP` reports `true` exactly when a row matching the
exact `(cidr, tenant, ip)` triple was present (and removed), reports
`false` with the store unchanged when nothing matched — releasing a
never-reserved address is a no-op, not an error — and under the UNIQUE
constraint a successful release removes exactly one row. -/
theorem releaseReservedIP_reports_removal (st : Store)
    (cidr tenant ip : String) :
    ((releaseReservedIP st cidr tenant ip).1 = true ↔
      ∃ r ∈ st, dupKey cidr tenant ip r = true) ∧
    ((∀ r ∈ st, dupKey cidr tenant ip r = false) →
      releaseReservedIP st cidr tenant ip = (false, st)) ∧
    (uniqueTriples st → (releaseReservedIP st cidr tenant ip).1 = true →
      st.length = (releaseReservedIP st cidr tenant ip).2.length + 1) := by
  have hcnt := countP_not_add (dupKey cidr tenant ip) st
  refine ⟨?_, ?_, ?_⟩
  · show (decide ((st.filter (fun r => !dupKey cidr tenant ip r)).length <
      st.length) = true) ↔ _
    simp only [decide_eq_true_eq]
    constructor
    · intro h
      have hpos : 0 < st.countP (dupKey cidr tenant ip) := by omega
      exact List.countP_pos_iff.mp hpos
    · intro h
      have hpos := List.countP_pos_iff.mpr h
      omega
  · intro h
    have hall : ∀ r ∈ st, (!dupKey cidr tenant ip r) = true := by
      intro r hr
      simp [h r hr]
    have hself : st.filter (fun r => !dupKey cidr tenant ip r) = st :=
      List.filter_eq_self.mpr hall
    show (decide ((st.filter (fun r => !dupKey cidr tenant ip r)).length <
      st.length), st.filter (fun r => !dupKey cidr tenant ip r)) = (false, st)
    rw [hself]
    simp [Nat.lt_irrefl]
  · intro hu h
    have hle := countP_dupKey_le_one st cidr tenant ip hu
    have h' : (st.filter (fun r => !dupKey cidr tenant ip r)).length <
        st.length := by
      have := of_decide_eq_true h
      exact this
    show st.length = (st.filter (fun r => !dupKey cidr tenant ip r)).length + 1
    omega

/-- Witness for C5: releasing the only matching row succeeds and removes
one row; releasing from the empty store is a no-op reporting `false`. -/
theorem releaseReservedIP_reports_removal_witness :
    (releaseReservedIP [⟨"10.0.0.0/24", "t1", "10.0.0.1", "p"⟩]
        "10.0.0.0/24" "t1" "10.0.0.1").1 = true ∧
    releaseReservedIP [] "10.0.0.0/24" "t1" "10.0.0.1" = (false, []) ∧
    ([⟨"10.0.0.0/24", "t1", "10.0.0.1", "p"⟩] : Store).length =
      (releaseReservedIP [⟨"10.0.0.0/24", "t1", "10.0.0.1", "p"⟩]
        "10.0.0.0/24" "t1" "10.0.0.1").2.length + 1 := by
  refine ⟨?_, ?_, ?_⟩
  · exact (releaseReservedIP_reports_removal _ "10.0.0.0/24" "t1" "10.0.0.1").1.mpr
      ⟨⟨"10.0.0.0/24", "t1", "10.0.0.1", "p"⟩, List.mem_cons_self _ _, by decide⟩
  · exact (releaseReservedIP_reports_removal [] "10.0.0.0/24" "t1"
      "10.0.0.1").2.1 (fun r hr => absurd hr (List.not_mem_nil r))
  · exact (releaseReservedIP_reports_removal _ "10.0.0.0/24" "t1"
      "10.0.0.1").2.2 (by simp [uniqueTriples]) (by decide)

/-- C6: `getIPsInSubnet` returns, in insertion order, exactly the
addresses of rows whose stored cidr text equals the canonical rendering
of the queried block; two reservations in `10.0.0.0/24` are listed in
insertion order; and a stored block written as the equivalent but
non-canonical text `10.0.0.1/24` (it parses to the very same block) is
missed by the string-exact query, which returns the empty list. -/
theorem getIPsInSubnet_exact_string_match :
    (∀ (st : Store) (subnet : String) (p : Nat) (net : IPNet),
      parseCIDR subnet = some (p, net) →
      getIPsInSubnet st subnet =
        some ((st.filter
          (fun r => r.cidr == ipNetString net.network p)).map Row.ip)) ∧
    (reserveIP (fun _ => false) [] "10.0.0.0/24" "t1" "alpha" =
      (Except.ok "10.0.0.1",
        [⟨"10.0.0.0/24", "t1", "10.0.0.1", "alpha"⟩]) ∧
     reserveIP (fun _ => false) [⟨"10.0.0.0/24", "t1", "10.0.0.1", "alpha"⟩]
        "10.0.0.0/24" "t1" "beta" =
      (Except.ok "10.0.0.2",
        [⟨"10.0.0.0/24", "t1", "10.0.0.1", "alpha"⟩,
         ⟨"10.0.0.0/24", "t1", "10.0.0.2", "beta"⟩]) ∧
     getIPsInSubnet
        [⟨"10.0.0.0/24", "t1", "10.0.0.1", "alpha"⟩,
         ⟨"10.0.0.0/24", "t1", "10.0.0.2", "beta"⟩] "10.0.0.0/24" =
      some ["10.0.0.1", "10.0.0.2"]) ∧
    (parseCIDR "10.0.0.1/24" = parseCIDR "10.0.0.0/24" ∧
     getIPsInSubnet [⟨"10.0.0.1/24", "t1", "10.0.0.1", "alpha"⟩]
        "10.0.0.0/24" = some ([] : List String)) := by
  refine ⟨?_, by decide, by decide⟩
  intro st subnet p net h
  unfold getIPsInSubnet
  rw [h]

/-- Witness for C6 on the empty store. -/
theorem getIPsInSubnet_exact_string_match_witness :
    getIPsInSubnet [] "10.0.0.0/24" =
      some ((([] : Store).filter
        (fun r => r.cidr == ipNetString net24.network 24)).map Row.ip) :=
  getIPsInSubnet_exact_string_match.1 [] "10.0.0.0/24" 24 net24 (by decide)

/-- C8 (code bug): the handler appends `"/32"` to every bare address,
including IPv6 ones — `2001:db8::1` becomes the /32 block
`2001:db8::1/32` — while the specified per-family normalization would
produce the single-host form `2001:db8::1/128`; for a bare IPv4 address
the two agree. -/
theorem normalizeSubnet_appends_slash32_to_ipv6 :
    normalizeSubnet "2001:db8::1" = "2001:db8::1/32" ∧
    specNormalizeSubnet "2001:db8::1" = "2001:db8::1/128" ∧
    (normalizeSubnet "2001:db8::1" == specNormalizeSubnet "2001:db8::1") =
      false ∧
    normalizeSubnet "10.0.0.5" = "10.0.0.5/32" ∧
    specNormalizeSubnet "10.0.0.5" = "10.0.0.5/32" := by
  refine ⟨by decide, by decide, by decide, by decide, by decide⟩

/-- C9: a candidate the scan hands back was just reported free by
`isIPReserved` over the same unchanged store, so the immediately
following re-check inside `reserveIP` always fails and the
already-reserved error branch is unreachable: a sequential `reserveIP`
call (as run under the handler's lock) returns success, no-available, or
a store failure — never the already-reserved error. -/
theorem reserveIP_already_reserved_unreachable :
    (∀ (st : Store) (cidr tenant ip : String),
      findAvailableIPStr st cidr tenant = (ip, true) →
      isIPReserved st ip cidr tenant = false) ∧
    (∀ (backendFail : Row → Bool) (st : Store) (cidr tenant purpose : String),
      (∃ ip, (reserveIP backendFail st cidr tenant purpose).1 = Except.ok ip) ∨
      (reserveIP backendFail st cidr tenant purpose).1 =
        Except.error ReserveErr.noAvailable ∨
      (reserveIP backendFail st cidr tenant purpose).1 =
        Except.error ReserveErr.storeFailure) := by
  refine ⟨findAvailableIPStr_not_reserved, ?_⟩
  intro bf st cidr tenant purpose
  unfold reserveIP
  cases hfa : findAvailableIPStr st cidr tenant with
  | mk ip avail =>
    cases avail with
    | false =>
      right
      left
      rfl
    | true =>
      have hres := findAvailableIPStr_not_reserved st cidr tenant ip hfa
      simp only [hres, Bool.false_eq_true, if_false]
      by_cases hb :
          (st.any (dupKey cidr tenant ip) || bf ⟨cidr, tenant, ip, purpose⟩) = true
      · rw [if_pos hb]
        right
        right
        rfl
      · rw [if_neg hb]
        left
        exact ⟨ip, rfl⟩

/-- Witness for C9: on the empty store the scan hands back `10.0.0.1` and
the re-check reports it free; the call returns one of the reachable
outcomes. -/
theorem reserveIP_already_reserved_unreachable_witness :
    isIPReserved [] "10.0.0.1" "10.0.0.0/24" "t" = false ∧
    ((∃ ip, (reserveIP (fun _ => false) [] "10.0.0.0/24" "t" "p").1 =
        Except.ok ip) ∨
      (reserveIP (fun _ => false) [] "10.0.0.0/24" "t" "p").1 =
        Except.error ReserveErr.noAvailable ∨
      (reserveIP (fun _ => false) [] "10.0.0.0/24" "t" "p").1 =
        Except.error ReserveErr.storeFailure) :=
  ⟨reserveIP_already_reserved_unreachable.1 [] "10.0.0.0/24" "t" "10.0.0.1"
      (by decide),
   reserveIP_already_reserved_unreachable.2 (fun _ => false) [] "10.0.0.0/24"
      "t" "p"⟩

end IPAM
